import Mathlib

set_option maxHeartbeats 1000000

/-! Shallow embedding of the anymap crate (src/lib.rs): a collection holding
at most one value per concrete type, keyed by type identity.

Type identities (`TypeId` in the source) are drawn from an arbitrary type
`K` with decidable equality; `El k` is the Lean type that the identity `k`
denotes.  An erased boxed trait object (`Box<A>` with `A = dyn Any`-like) is
a tag together with a value of the tagged type.  The backing `HashMap` —
an external collaborator of the repository — is modelled as an association
list with at most one live entry per key (its operations below implement the
documented `std::collections::HashMap` contract: `insert` returns the
displaced value, `remove` returns the removed one, `clear` keeps the
allocated capacity) plus a capacity counter. -/

/-- An erased boxed value (`Box<A>` in the source): the `TypeId` tag that the
contained value reports, together with a value of that concrete type. -/
structure ErasedBox (K : Type) (El : K → Type) where
  ty : K
  val : El ty

/-- The backing hash table `RawMap<A> = HashMap<TypeId, Box<A>, _>`:
association list of key/boxed-value pairs plus the table capacity. -/
structure RawMap (K : Type) (El : K → Type) where
  entries : List (K × ErasedBox K El)
  cap : Nat

/-- `Map<A>`: the typed facade, a newtype over the raw hash map. -/
structure Map (K : Type) (El : K → Type) where
  raw : RawMap K El

/-- `OccupiedEntry<'a, A, V>`: a view into a slot of the map that currently
holds a value; it borrows the whole map, and the key is the type parameter
`V`, here the index `t`. -/
structure OccupiedEntry (K : Type) (El : K → Type) (t : K) where
  map : Map K El

/-- `VacantEntry<'a, A, V>`: a view into a currently empty slot. -/
structure VacantEntry (K : Type) (El : K → Type) (t : K) where
  map : Map K El

/-- `Entry<'a, A, V>`: either occupied or vacant. -/
inductive Entry (K : Type) (El : K → Type) (t : K) where
  | occupied (view : OccupiedEntry K El t)
  | vacant (view : VacantEntry K El t)

variable {K : Type} [DecidableEq K] {β : Type} {El : K → Type}

/-- Lookup of the first entry with the given key in an association list
(the backing table holds at most one). -/
def assocLookup (k : K) : List (K × β) → Option β
  | [] => none
  | p :: rest => if p.1 = k then some p.2 else assocLookup k rest

/-- Drop every entry with the given key. -/
def eraseKey (k : K) : List (K × β) → List (K × β)
  | [] => []
  | p :: rest => if p.1 = k then eraseKey k rest else p :: eraseKey k rest

/-- Whether some entry has the given key. -/
def hasKey (k : K) : List (K × β) → Bool
  | [] => false
  | p :: rest => if p.1 = k then true else hasKey k rest

/-- Number of entries with the given key. -/
def countKey (k : K) : List (K × β) → Nat
  | [] => 0
  | p :: rest => (if p.1 = k then 1 else 0) + countKey k rest

/-- Apply `g` to the value of every entry with the given key. -/
def modifyEntry (k : K) (g : β → β) : List (K × β) → List (K × β)
  | [] => []
  | p :: rest =>
    if p.1 = k then (p.1, g p.2) :: modifyEntry k g rest
    else p :: modifyEntry k g rest

/-- No two entries share a key. -/
def keysNodup : List (K × β) → Bool
  | [] => true
  | p :: rest => (!hasKey p.1 rest) && keysNodup rest

/-- `downcast_ref_unchecked` / `downcast_unchecked`: recover the concrete
value assuming its tag is `t`.  In the source a tag mismatch is undefined
behaviour; the model returns `none` in that case. -/
def ErasedBox.downcast (b : ErasedBox K El) (t : K) : Option (El t) :=
  if h : b.ty = t then some (h ▸ b.val) else none

/-- `downcast_mut_unchecked` followed by an in-place write of `f` applied to
the value: on a tag mismatch (undefined behaviour in the source) the model
leaves the box unchanged. -/
def ErasedBox.modifyAt (b : ErasedBox K El) (t : K) (f : El t → El t) : ErasedBox K El :=
  if h : b.ty = t then ⟨t, f (h ▸ b.val)⟩ else b

/-- `HashMap::insert`: store `b` under `k`, returning the new table and the
displaced value, if any. -/
def RawMap.insert (r : RawMap K El) (k : K) (b : ErasedBox K El) :
    RawMap K El × Option (ErasedBox K El) :=
  (⟨(k, b) :: eraseKey k r.entries,
    Nat.max r.cap ((k, b) :: eraseKey k r.entries).length⟩,
   assocLookup k r.entries)

/-- `HashMap::remove`: delete the entry under `k`, returning the new table
and the removed value, if any. -/
def RawMap.remove (r : RawMap K El) (k : K) :
    RawMap K El × Option (ErasedBox K El) :=
  (⟨eraseKey k r.entries, r.cap⟩, assocLookup k r.entries)

/-- `Map::new`: `RawMap::with_hasher(Default::default())`, an empty table. -/
def Map.new : Map K El := ⟨⟨[], 0⟩⟩

/-- `Map::with_capacity`: empty table pre-sized for `n` entries. -/
def Map.withCapacity (n : Nat) : Map K El := ⟨⟨[], n⟩⟩

/-- `Map::capacity`. -/
def Map.capacity (m : Map K El) : Nat := m.raw.cap

/-- `Map::len`: number of items in the collection. -/
def Map.len (m : Map K El) : Nat := m.raw.entries.length

/-- `Map::is_empty`. -/
def Map.isEmpty (m : Map K El) : Bool := m.raw.entries.isEmpty

/-- `Map::clear`: removes all items, keeping the allocated memory. -/
def Map.clear (m : Map K El) : Map K El := ⟨⟨[], m.raw.cap⟩⟩

/-- `Map::get::<T>`: look up `TypeId::of::<T>` and downcast the box.  The
source maps a total unchecked downcast over the lookup result; the model's
downcast is the `Option`-valued one above, hence `bind`. -/
def Map.get (m : Map K El) (t : K) : Option (El t) :=
  (assocLookup t m.raw.entries).bind fun b => b.downcast t

/-- `Map::insert::<T>`: `raw.insert(TypeId::of::<T>(), value.into_box())`,
downcasting the displaced box. -/
def Map.insert (m : Map K El) (t : K) (v : El t) : Map K El × Option (El t) :=
  let r := m.raw.insert t ⟨t, v⟩
  (⟨r.1⟩, r.2.bind fun b => b.downcast t)

/-- `Map::remove::<T>`: `raw.remove(&TypeId::of::<T>())`, downcasting the
removed box. -/
def Map.remove (m : Map K El) (t : K) : Map K El × Option (El t) :=
  let r := m.raw.remove t
  (⟨r.1⟩, r.2.bind fun b => b.downcast t)

/-- `Map::contains::<T>`: `raw.contains_key(&TypeId::of::<T>())`. -/
def Map.contains (m : Map K El) (t : K) : Bool :=
  hasKey t m.raw.entries

/-- `Map::entry::<T>`: one lookup, yielding an occupied or vacant view. -/
def Map.entry (m : Map K El) (t : K) : Entry K El t :=
  match m.contains t with
  | true => .occupied ⟨m⟩
  | false => .vacant ⟨m⟩

/-- `Extend::extend`: `for item in iter { self.raw.insert(item.type_id(), item); }`.
Here `item : Box<A>`, and by Rust method resolution `item.type_id()` is
`<Box<A> as Any>::type_id` — the `TypeId` of the box type itself, one
constant for the whole map, not the contained value's `TypeId` (see the
"Smart pointers and dyn Any" note in the `core::any::Any` documentation:
the receiver `Box<A>` implements `Any` and is matched before any deref).
The model therefore takes that constant as the parameter `boxKey` and
inserts every incoming item under it, discarding displaced values. -/
def Map.extend (m : Map K El) (boxKey : K) (items : List (ErasedBox K El)) : Map K El :=
  items.foldl (fun acc item => ⟨(acc.raw.insert boxKey item).1⟩) m

/-- The safety invariant of the typed facade, on the raw entries: the box
stored under a key reports exactly that key as its tag. -/
def tagsOkList : List (K × ErasedBox K El) → Bool
  | [] => true
  | p :: rest => if p.2.ty = p.1 then tagsOkList rest else false

/-- The safety invariant stated on a map. -/
def Map.tagsOk (m : Map K El) : Bool := tagsOkList m.raw.entries

/-- A map as maintained by the backing table and the typed facade: unique
keys and matching tags. -/
def Map.wellFormed (m : Map K El) : Bool :=
  keysNodup m.raw.entries && tagsOkList m.raw.entries

/-- `OccupiedEntry::into_mut`: downcast the occupied slot's box (the same
computation `Map::get` performs on that slot). -/
def OccupiedEntry.intoMut (o : OccupiedEntry K El t) : Option (El t) :=
  o.map.get t

/-- `OccupiedEntry::get_mut` followed by an in-place update with `f`. -/
def OccupiedEntry.modifyValue (o : OccupiedEntry K El t) (f : El t → El t) :
    OccupiedEntry K El t :=
  ⟨⟨⟨modifyEntry t (fun b => b.modifyAt t f) o.map.raw.entries, o.map.raw.cap⟩⟩⟩

/-- `VacantEntry::insert`: store the box under the entry's key and return a
reference to the freshly inserted value, with the updated map. -/
def VacantEntry.insertValue (ve : VacantEntry K El t) (v : El t) :
    Map K El × Option (El t) :=
  (⟨(ve.map.raw.insert t ⟨t, v⟩).1⟩, ErasedBox.downcast ⟨t, v⟩ t)

/-- `Entry::or_insert`: `into_mut` when occupied, `VacantEntry::insert`
when vacant; returns the map state and the referenced value. -/
def Entry.or_insert (e : Entry K El t) (d : El t) : Map K El × Option (El t) :=
  match e with
  | .occupied o => (o.map, o.intoMut)
  | .vacant ve => ve.insertValue d

/-- `Entry::and_modify`: apply `f` in place when occupied, pass a vacant
entry through unchanged. -/
def Entry.and_modify (e : Entry K El t) (f : El t → El t) : Entry K El t :=
  match e with
  | .occupied o => .occupied (o.modifyValue f)
  | .vacant ve => .vacant ve

/-- The map state carried by an entry view. -/
def Entry.mapState : Entry K El t → Map K El
  | .occupied o => o.map
  | .vacant ve => ve.map

/-- Whether an entry view is occupied. -/
def Entry.isOccupied : Entry K El t → Bool
  | .occupied _ => true
  | .vacant _ => false

/-- A byte, for the hasher model. -/
abbrev Byte := Fin 256

/-- `<&[u8] as TryInto<[u8; 8]>>::try_into`: succeeds exactly on length 8. -/
def tryInto8 (bytes : List Byte) : Option (List Byte) :=
  if bytes.length = 8 then some bytes else none

/-- `u64::from_ne_bytes`: the 8 bytes reinterpreted as a `u64` in native
byte order, fixed here as little-endian (the properties proved are
independent of the order chosen). -/
def u64FromNeBytes (bytes : List Byte) : Nat :=
  bytes.foldr (fun b acc => b.val + 256 * acc) 0

/-- `TypeIdHasher`: a pass-through hasher whose state is one `u64`,
`Default`-initialised to 0. -/
structure TypeIdHasher where
  value : Nat
deriving DecidableEq

/-- `TypeIdHasher::default()`. -/
def TypeIdHasher.default : TypeIdHasher := ⟨0⟩

/-- `TypeIdHasher::write` as compiled without debug assertions:
`let _ = bytes.try_into().map(|array| self.value = u64::from_ne_bytes(array));`
— on the wrong width `try_into` fails and the state is left unchanged. -/
def TypeIdHasher.write (h : TypeIdHasher) (bytes : List Byte) : TypeIdHasher :=
  match tryInto8 bytes with
  | some arr => { value := u64FromNeBytes arr }
  | none => h

/-- `TypeIdHasher::write` in a validating build: `debug_assert_eq!(bytes.len(), 8)`
first — the assertion failure (a panic) is modelled as `none`. -/
def TypeIdHasher.writeChecked (h : TypeIdHasher) (bytes : List Byte) :
    Option TypeIdHasher :=
  if bytes.length = 8 then some (h.write bytes) else none

/-- `TypeIdHasher::finish`. -/
def TypeIdHasher.finish (h : TypeIdHasher) : Nat := h.value

/-! Helper lemmas about the association-list model of the backing table. -/

theorem assocLookup_eraseKey_self (k : K) (l : List (K × β)) :
    assocLookup k (eraseKey k l) = none := by
  induction l with
  | nil => rfl
  | cons p rest ih =>
    by_cases h : p.1 = k
    · simp [eraseKey, h, ih]
    · simp [eraseKey, assocLookup, h, ih]

theorem assocLookup_eraseKey_ne (s k : K) (l : List (K × β)) (h : s ≠ k) :
    assocLookup s (eraseKey k l) = assocLookup s l := by
  induction l with
  | nil => rfl
  | cons p rest ih =>
    have hks : ¬k = s := fun hc => h hc.symm
    by_cases hp : p.1 = k
    · simp [eraseKey, assocLookup, hp, hks, ih]
    · by_cases hs : p.1 = s
      · simp [eraseKey, assocLookup, hp, hs, h]
      · simp [eraseKey, assocLookup, hp, hs, h, ih]

theorem hasKey_eq_isSome (k : K) (l : List (K × β)) :
    hasKey k l = (assocLookup k l).isSome := by
  induction l with
  | nil => rfl
  | cons p rest ih =>
    by_cases h : p.1 = k
    · simp [hasKey, assocLookup, h]
    · simp [hasKey, assocLookup, h, ih]

theorem hasKey_eraseKey_ne (s k : K) (l : List (K × β)) (h : s ≠ k) :
    hasKey s (eraseKey k l) = hasKey s l := by
  induction l with
  | nil => rfl
  | cons p rest ih =>
    have hks : ¬k = s := fun hc => h hc.symm
    by_cases hp : p.1 = k
    · simp [eraseKey, hasKey, hp, hks, ih]
    · by_cases hs : p.1 = s
      · simp [eraseKey, hasKey, hp, hs, h]
      · simp [eraseKey, hasKey, hp, hs, h, ih]

theorem eraseKey_of_hasKey_false (k : K) (l : List (K × β))
    (h : hasKey k l = false) : eraseKey k l = l := by
  induction l with
  | nil => rfl
  | cons p rest ih =>
    by_cases hp : p.1 = k
    · simp [hasKey, hp] at h
    · simp [hasKey, hp] at h
      simp [eraseKey, hp, ih h]

theorem length_eraseKey_nodup (k : K) (l : List (K × β))
    (hnd : keysNodup l = true) (hk : hasKey k l = true) :
    (eraseKey k l).length + 1 = l.length := by
  induction l with
  | nil => simp [hasKey] at hk
  | cons p rest ih =>
    have hnd' : hasKey p.1 rest = false ∧ keysNodup rest = true := by
      simpa [keysNodup, Bool.and_eq_true] using hnd
    by_cases hp : p.1 = k
    · have hrest : hasKey k rest = false := hp ▸ hnd'.1
      simp [eraseKey, hp, eraseKey_of_hasKey_false k rest hrest]
    · have hk' : hasKey k rest = true := by simpa [hasKey, hp] using hk
      simp [eraseKey, hp]
      exact ih hnd'.2 hk'

theorem countKey_of_hasKey_false (k : K) (l : List (K × β))
    (h : hasKey k l = false) : countKey k l = 0 := by
  induction l with
  | nil => rfl
  | cons p rest ih =>
    by_cases hp : p.1 = k
    · simp [hasKey, hp] at h
    · simp [hasKey, hp] at h
      simp [countKey, hp, ih h]

theorem countKey_eraseKey_self (k : K) (l : List (K × β)) :
    countKey k (eraseKey k l) = 0 := by
  induction l with
  | nil => rfl
  | cons p rest ih =>
    by_cases hp : p.1 = k
    · simp [eraseKey, hp, ih]
    · simp [eraseKey, countKey, hp, ih]

theorem countKey_eq_one (k : K) (l : List (K × β))
    (hnd : keysNodup l = true) (hk : hasKey k l = true) :
    countKey k l = 1 := by
  induction l with
  | nil => simp [hasKey] at hk
  | cons p rest ih =>
    have hnd' : hasKey p.1 rest = false ∧ keysNodup rest = true := by
      simpa [keysNodup, Bool.and_eq_true] using hnd
    by_cases hp : p.1 = k
    · have hrest : hasKey k rest = false := hp ▸ hnd'.1
      simp [countKey, hp, countKey_of_hasKey_false k rest hrest]
    · have hk' : hasKey k rest = true := by simpa [hasKey, hp] using hk
      simp [countKey, hp]
      exact ih hnd'.2 hk'

theorem assocLookup_modifyEntry_self (k : K) (g : β → β) (l : List (K × β)) :
    assocLookup k (modifyEntry k g l) = (assocLookup k l).map g := by
  induction l with
  | nil => rfl
  | cons p rest ih =>
    by_cases hp : p.1 = k
    · simp [modifyEntry, assocLookup, hp]
    · simp [modifyEntry, assocLookup, hp, ih]

theorem assocLookup_modifyEntry_ne (s k : K) (g : β → β) (l : List (K × β))
    (h : s ≠ k) :
    assocLookup s (modifyEntry k g l) = assocLookup s l := by
  induction l with
  | nil => rfl
  | cons p rest ih =>
    have hks : ¬k = s := fun hc => h hc.symm
    by_cases hp : p.1 = k
    · simp [modifyEntry, assocLookup, hp, hks, ih]
    · by_cases hs : p.1 = s
      · simp [modifyEntry, assocLookup, hp, hs, h]
      · simp [modifyEntry, assocLookup, hp, hs, h, ih]

theorem lookup_tag {l : List (K × ErasedBox K El)} {t : K} {b : ErasedBox K El}
    (htags : tagsOkList l = true) (hb : assocLookup t l = some b) :
    b.ty = t := by
  induction l with
  | nil => simp [assocLookup] at hb
  | cons p rest ih =>
    by_cases htag : p.2.ty = p.1
    · have htags' : tagsOkList rest = true := by simpa [tagsOkList, htag] using htags
      by_cases hp : p.1 = t
      · have hbp : b = p.2 := by simpa [assocLookup, hp] using hb.symm
        rw [hbp, htag, hp]
      · exact ih htags' (by simpa [assocLookup, hp] using hb)
    · simp [tagsOkList, htag] at htags

theorem downcast_mk_self (t : K) (v : El t) :
    (⟨t, v⟩ : ErasedBox K El).downcast t = some v := by
  simp [ErasedBox.downcast]

theorem downcast_modifyAt (b : ErasedBox K El) (t : K) (f : El t → El t) :
    (b.modifyAt t f).downcast t = (b.downcast t).map f := by
  cases b with
  | mk ty val =>
    by_cases h : ty = t
    · subst h
      have hm : (⟨ty, val⟩ : ErasedBox K El).modifyAt ty f = ⟨ty, f val⟩ := by
        rw [ErasedBox.modifyAt, dif_pos rfl]
      rw [hm, downcast_mk_self, downcast_mk_self]
      rfl
    · simp [ErasedBox.modifyAt, ErasedBox.downcast, h]

theorem get_isSome_eq_contains (m : Map K El) (t : K)
    (hwf : m.wellFormed = true) : (m.get t).isSome = m.contains t := by
  have htags : tagsOkList m.raw.entries = true := by
    have h := hwf
    simp [Map.wellFormed, Bool.and_eq_true] at h
    exact h.2
  rw [Map.contains, hasKey_eq_isSome]
  cases hb : assocLookup t m.raw.entries with
  | none => simp [Map.get, hb]
  | some b =>
    have hts := lookup_tag htags hb
    simp [Map.get, hb, ErasedBox.downcast, hts]

theorem get_insert_self (m : Map K El) (t : K) (v : El t) :
    (m.insert t v).1.get t = some v := by
  simp [Map.insert, RawMap.insert, Map.get, assocLookup, downcast_mk_self]

theorem get_insert_ne (m : Map K El) (t : K) (v : El t) (s : K) (h : s ≠ t) :
    (m.insert t v).1.get s = m.get s := by
  have hts : ¬t = s := fun hc => h hc.symm
  simp [Map.insert, RawMap.insert, Map.get, assocLookup, hts,
    assocLookup_eraseKey_ne s t m.raw.entries h]

theorem contains_insert_self (m : Map K El) (t : K) (v : El t) :
    (m.insert t v).1.contains t = true := by
  simp [Map.insert, RawMap.insert, Map.contains, hasKey]

theorem entry_occupied_of_contains (m : Map K El) (t : K)
    (h : m.contains t = true) : m.entry t = .occupied ⟨m⟩ := by
  simp [Map.entry, h]

theorem entry_vacant_of_not_contains (m : Map K El) (t : K)
    (h : m.contains t = false) : m.entry t = .vacant ⟨m⟩ := by
  simp [Map.entry, h]

theorem write_noop (h : TypeIdHasher) (bs : List Byte) (hb : bs.length ≠ 8) :
    h.write bs = h := by
  simp [TypeIdHasher.write, tryInto8, hb]

theorem foldl_write_noop (bss : List (List Byte)) (h : TypeIdHasher)
    (hbss : ∀ bs ∈ bss, bs.length ≠ 8) :
    bss.foldl TypeIdHasher.write h = h := by
  induction bss generalizing h with
  | nil => rfl
  | cons bs rest ih =>
    rw [List.foldl_cons, write_noop h bs (hbss bs (by simp))]
    exact ih h fun b hb => hbss b (by simp [hb])

/-! The claim theorems. -/

/-- Claim C1: the claim asserts that every map reachable through the typed
facade keeps, for every entry, the stored value's concrete type identical to
the type its key denotes.  `extend` violates this: it inserts each incoming
box under the constant key `TypeId::of::<Box<A>>` (here `0`), so extending an
empty map with one erased value of type `1` yields an entry whose key `0` is
present while the value under it was inserted as a value of type `1` — the
tag invariant is false and even the key's own typed lookup cannot recover
the value. -/
theorem extend_violates_type_invariant :
    ((Map.new : Map Nat (fun _ => Int)).extend 0 [⟨1, 42⟩]).contains 0 = true ∧
    ((Map.new : Map Nat (fun _ => Int)).extend 0 [⟨1, 42⟩]).tagsOk = false ∧
    ((Map.new : Map Nat (fun _ => Int)).extend 0 [⟨1, 42⟩]).get 0 = none := by
  decide

/-- Claim C2: the claim asserts that `extend` inserts each incoming value
under that value's own reported `TypeId`, so that `get::<T>()` afterwards
finds a value supplied as a `T`.  In the code every item is instead inserted
under the one key `TypeId::of::<Box<A>>` (here `0`): after extending the
empty map with erased values of the distinct types `1` and `2`, neither type
is present, neither typed lookup finds its value, and only a single entry
remains (the second item displaced the first at the shared wrong key). -/
theorem extend_keys_items_by_box_type :
    ((Map.new : Map Nat (fun _ => Int)).extend 0 [⟨1, 42⟩, ⟨2, 7⟩]).get 1 = none ∧
    ((Map.new : Map Nat (fun _ => Int)).extend 0 [⟨1, 42⟩, ⟨2, 7⟩]).get 2 = none ∧
    ((Map.new : Map Nat (fun _ => Int)).extend 0 [⟨1, 42⟩, ⟨2, 7⟩]).contains 1 = false ∧
    ((Map.new : Map Nat (fun _ => Int)).extend 0 [⟨1, 42⟩, ⟨2, 7⟩]).contains 2 = false ∧
    ((Map.new : Map Nat (fun _ => Int)).extend 0 [⟨1, 42⟩, ⟨2, 7⟩]).len = 1 := by
  decide

/-- Claim C3: on a well-formed map, `insert::<T>(v)` returns exactly the
prior value of type `T` (what `get::<T>()` returned just before, `none`
precisely when no entry for `T` existed), and afterwards `get::<T>()`
returns `v`. -/
theorem insert_replaces_and_returns_prior (m : Map K El) (t : K) (v : El t)
    (hwf : m.wellFormed = true) :
    (m.insert t v).2 = m.get t ∧
    (m.insert t v).1.get t = some v ∧
    ((m.insert t v).2 = none ↔ m.contains t = false) := by
  refine ⟨rfl, get_insert_self m t v, ?_⟩
  have e : (m.insert t v).2 = m.get t := rfl
  rw [e, ← get_isSome_eq_contains m t hwf]
  cases m.get t <;> simp

/-- Claim C4: `remove::<T>()` returns the value currently stored for `T`
(`none` when absent, and some value exactly when `T` was present on a
well-formed map) and deletes the entry: afterwards `get::<T>()` is `none`,
`contains::<T>()` is false, and every other type's slot and presence bit are
untouched. -/
theorem remove_deletes_and_returns (m : Map K El) (t : K)
    (hwf : m.wellFormed = true) :
    (m.remove t).2 = m.get t ∧
    (m.remove t).1.get t = none ∧
    (m.remove t).1.contains t = false ∧
    (m.contains t = true → ((m.remove t).2).isSome = true) ∧
    (∀ s, s ≠ t → (m.remove t).1.get s = m.get s ∧
      (m.remove t).1.contains s = m.contains s) := by
  refine ⟨rfl, ?_, ?_, ?_, ?_⟩
  · simp [Map.remove, RawMap.remove, Map.get, assocLookup_eraseKey_self]
  · simp [Map.remove, RawMap.remove, Map.contains, hasKey_eq_isSome,
      assocLookup_eraseKey_self]
  · intro hc
    have e : (m.remove t).2 = m.get t := rfl
    rw [e, get_isSome_eq_contains m t hwf]
    exact hc
  · intro s hs
    constructor
    · simp [Map.remove, RawMap.remove, Map.get,
        assocLookup_eraseKey_ne s t m.raw.entries hs]
    · simp [Map.remove, RawMap.remove, Map.contains,
        hasKey_eraseKey_ne s t m.raw.entries hs]

/-- Claim C5: for distinct types `t` and `u`, inserting a value for each in
either order leaves `get` returning the respective value for both, and an
insert for one type does not change any other type's slot. -/
theorem insert_distinct_types_commute (m : Map K El) (t u : K)
    (vt : El t) (vu : El u) (hne : t ≠ u) :
    ((m.insert t vt).1.insert u vu).1.get t = some vt ∧
    ((m.insert t vt).1.insert u vu).1.get u = some vu ∧
    ((m.insert u vu).1.insert t vt).1.get t = some vt ∧
    ((m.insert u vu).1.insert t vt).1.get u = some vu ∧
    (∀ s, s ≠ t → (m.insert t vt).1.get s = m.get s) := by
  refine ⟨?_, ?_, ?_, ?_, fun s hs => get_insert_ne m t vt s hs⟩
  · rw [get_insert_ne _ u vu t hne, get_insert_self]
  · exact get_insert_self _ u vu
  · exact get_insert_self _ t vt
  · rw [get_insert_ne _ t vt u (Ne.symm hne), get_insert_self]

/-- Claim C6: on a well-formed map, `entry::<T>().or_insert(default)` keeps
an occupied map unchanged and fills a vacant slot with the default (leaving
every other slot alone); it is idempotent — a second identical call changes
nothing — both calls hand back a reference to the stored value, and exactly
one entry for `T` is stored afterwards. -/
theorem or_insert_idempotent (m : Map K El) (t : K) (d : El t)
    (hwf : m.wellFormed = true) :
    (m.contains t = true → ((m.entry t).or_insert d).1 = m) ∧
    (m.contains t = false → ((m.entry t).or_insert d).1.get t = some d ∧
      ∀ s, s ≠ t → ((m.entry t).or_insert d).1.get s = m.get s) ∧
    ((((m.entry t).or_insert d).1.entry t).or_insert d).1 =
      ((m.entry t).or_insert d).1 ∧
    ((m.entry t).or_insert d).2 = ((m.entry t).or_insert d).1.get t ∧
    ((((m.entry t).or_insert d).1.entry t).or_insert d).2 =
      ((m.entry t).or_insert d).1.get t ∧
    countKey t ((m.entry t).or_insert d).1.raw.entries = 1 := by
  have hnd : keysNodup m.raw.entries = true := by
    have h := hwf
    simp [Map.wellFormed, Bool.and_eq_true] at h
    exact h.1
  by_cases hc : m.contains t = true
  · have he : m.entry t = .occupied ⟨m⟩ := entry_occupied_of_contains m t hc
    have h1 : ((m.entry t).or_insert d).1 = m := by
      rw [he]
      rfl
    have he1 : ((m.entry t).or_insert d).1.entry t =
        .occupied ⟨((m.entry t).or_insert d).1⟩ :=
      entry_occupied_of_contains _ t (by rw [h1]; exact hc)
    refine ⟨fun _ => h1, fun hcf => absurd hc (by simp [hcf]), ?_, ?_, ?_, ?_⟩
    · rw [he1]
      rfl
    · rw [he]
      rfl
    · rw [he1]
      rfl
    · rw [h1]
      exact countKey_eq_one t m.raw.entries hnd hc
  · have hcf : m.contains t = false := by simpa using hc
    have he : m.entry t = .vacant ⟨m⟩ := entry_vacant_of_not_contains m t hcf
    have h1 : ((m.entry t).or_insert d).1 = (m.insert t d).1 := by
      rw [he]
      rfl
    have hc1 : ((m.entry t).or_insert d).1.contains t = true := by
      rw [h1]
      exact contains_insert_self m t d
    have he1 : ((m.entry t).or_insert d).1.entry t =
        .occupied ⟨((m.entry t).or_insert d).1⟩ :=
      entry_occupied_of_contains _ t hc1
    have hget : ((m.entry t).or_insert d).1.get t = some d := by
      rw [h1]
      exact get_insert_self m t d
    refine ⟨fun hct => absurd hct (by simp [hcf]), ?_, ?_, ?_, ?_, ?_⟩
    · exact fun _ => ⟨hget, fun s hs => by rw [h1, get_insert_ne m t d s hs]⟩
    · rw [he1]
      rfl
    · rw [hget, he]
      exact downcast_mk_self t d
    · rw [he1]
      rfl
    · rw [h1]
      show countKey t ((t, ⟨t, d⟩) :: eraseKey t m.raw.entries) = 1
      simp [countKey, countKey_eraseKey_self]

/-- Claim C7: `entry::<T>().and_modify(f)` passes a vacant entry through
unchanged (the slot stays absent, `f` is never applied), and on an occupied
slot applies `f` exactly once, in place, leaving every other slot untouched;
in both cases the returned entry is in the corresponding state. -/
theorem and_modify_occupied_only (m : Map K El) (t : K) (f : El t → El t) :
    (m.contains t = false → (m.entry t).and_modify f = m.entry t) ∧
    (∀ v, m.get t = some v →
      ((m.entry t).and_modify f).isOccupied = true ∧
      ((m.entry t).and_modify f).mapState.get t = some (f v) ∧
      ∀ s, s ≠ t → ((m.entry t).and_modify f).mapState.get s = m.get s) := by
  constructor
  · intro hcf
    simp [Map.entry, hcf, Entry.and_modify]
  · intro v hv
    obtain ⟨b, hb, hd⟩ : ∃ b, assocLookup t m.raw.entries = some b ∧
        b.downcast t = some v := by
      simpa [Map.get, Option.bind_eq_some] using hv
    have hc : m.contains t = true := by
      rw [Map.contains, hasKey_eq_isSome, hb]
      rfl
    have he : m.entry t = .occupied ⟨m⟩ := by simp [Map.entry, hc]
    have hstate : ((m.entry t).and_modify f).mapState =
        ⟨⟨modifyEntry t (fun b => b.modifyAt t f) m.raw.entries,
          m.raw.cap⟩⟩ := by
      rw [he]
      rfl
    refine ⟨by rw [he]; rfl, ?_, ?_⟩
    · rw [hstate]
      show (assocLookup t (modifyEntry t (fun b => b.modifyAt t f)
        m.raw.entries)).bind (fun b => b.downcast t) = some (f v)
      rw [assocLookup_modifyEntry_self, hb]
      show (b.modifyAt t f).downcast t = some (f v)
      rw [downcast_modifyAt, hd]
      rfl
    · intro s hs
      rw [hstate]
      show (assocLookup s (modifyEntry t (fun b => b.modifyAt t f)
        m.raw.entries)).bind (fun b => b.downcast s) = m.get s
      rw [assocLookup_modifyEntry_ne s t _ m.raw.entries hs]
      rfl

/-- Claim C8: `TypeIdHasher` is a pass-through accumulator: after exactly one
8-byte write on a fresh hasher, `finish` returns those bytes reinterpreted as
a native-endian `u64` with no bytewise mixing, and in a validating build a
write of any other length fails the assertion. -/
theorem hasher_pass_through (bytes bad : List Byte) (h : TypeIdHasher)
    (h8 : bytes.length = 8) (hbad : bad.length ≠ 8) :
    (TypeIdHasher.default.write bytes).finish = u64FromNeBytes bytes ∧
    h.writeChecked bad = none := by
  constructor
  · simp [TypeIdHasher.write, tryInto8, h8, TypeIdHasher.finish]
  · simp [TypeIdHasher.writeChecked, hbad]

/-- Claim C9: `len()` counts the distinct stored types and `is_empty()` holds
exactly when that count is zero: a new map has length zero, inserting an
absent type adds one, inserting a present type keeps the count, removing a
present type subtracts one, and `clear()` drives the length to zero while
preserving the allocated capacity. -/
theorem len_tracks_distinct_types (m : Map K El) (t : K) (v : El t)
    (hwf : m.wellFormed = true) :
    (Map.new : Map K El).len = 0 ∧
    (m.isEmpty = true ↔ m.len = 0) ∧
    (m.contains t = false → (m.insert t v).1.len = m.len + 1) ∧
    (m.contains t = true → (m.insert t v).1.len = m.len) ∧
    (m.contains t = true → (m.remove t).1.len + 1 = m.len) ∧
    m.clear.len = 0 ∧
    m.clear.capacity = m.capacity := by
  have hnd : keysNodup m.raw.entries = true := by
    have h := hwf
    simp [Map.wellFormed, Bool.and_eq_true] at h
    exact h.1
  refine ⟨rfl, ?_, ?_, ?_, ?_, rfl, rfl⟩
  · cases hm : m.raw.entries <;> simp [Map.isEmpty, Map.len, hm]
  · intro hcf
    have he : eraseKey t m.raw.entries = m.raw.entries :=
      eraseKey_of_hasKey_false t m.raw.entries hcf
    simp [Map.insert, RawMap.insert, Map.len, he]
  · intro hct
    have hl := length_eraseKey_nodup t m.raw.entries hnd hct
    simp [Map.insert, RawMap.insert, Map.len]
    omega
  · intro hct
    have hl := length_eraseKey_nodup t m.raw.entries hnd hct
    simp [Map.remove, RawMap.remove, Map.len]
    omega

/-- Claim C10: compiled without debug assertions, a write of a wrong-width
slice leaves the hasher state completely unchanged: such a write is the
identity on the state, a fresh hasher fed only wrong-width writes finishes
with 0, and a wrong-width write after a correct 8-byte write still reports
the value of the 8-byte write. -/
theorem write_wrong_width_no_op (h : TypeIdHasher) (bad b8 : List Byte)
    (bss : List (List Byte)) (hbad : bad.length ≠ 8) (_h8 : b8.length = 8)
    (hbss : ∀ bs ∈ bss, bs.length ≠ 8) :
    h.write bad = h ∧
    (bss.foldl TypeIdHasher.write TypeIdHasher.default).finish = 0 ∧
    ((TypeIdHasher.default.write b8).write bad).finish =
      (TypeIdHasher.default.write b8).finish := by
  refine ⟨write_noop h bad hbad, ?_, ?_⟩
  · rw [foldl_write_noop bss TypeIdHasher.default hbss]
    rfl
  · rw [write_noop _ bad hbad]

/-! Concrete instances of the theorems above, at small maps over `Nat` keys
interpreted as `Int`-valued types. -/

/-- A well-formed one-entry map used by the concrete instances below. -/
abbrev sampleMap : Map Nat (fun _ => Int) :=
  ((Map.new : Map Nat (fun _ => Int)).insert 1 10).1

/-- The empty map used by the concrete instances below. -/
abbrev emptyMap : Map Nat (fun _ => Int) := Map.new

/-- Concrete instance of the C3 theorem. -/
theorem insert_replaces_and_returns_prior_witness :
    sampleMap.wellFormed = true ∧
    ((sampleMap.insert 1 20).2 = sampleMap.get 1 ∧
     (sampleMap.insert 1 20).1.get 1 = some 20 ∧
     ((sampleMap.insert 1 20).2 = none ↔ sampleMap.contains 1 = false)) :=
  ⟨by decide, insert_replaces_and_returns_prior sampleMap 1 20 (by decide)⟩

/-- Concrete instance of the C4 theorem. -/
theorem remove_deletes_and_returns_witness :
    sampleMap.wellFormed = true ∧
    (sampleMap.remove 1).2 = sampleMap.get 1 ∧
    (sampleMap.remove 1).1.get 1 = none ∧
    (sampleMap.remove 1).1.contains 1 = false ∧
    ((sampleMap.remove 1).2).isSome = true ∧
    (sampleMap.remove 1).1.get 2 = sampleMap.get 2 ∧
    (sampleMap.remove 1).1.contains 2 = sampleMap.contains 2 := by
  have A := remove_deletes_and_returns sampleMap 1 (by decide)
  exact ⟨by decide, A.1, A.2.1, A.2.2.1, A.2.2.2.1 (by decide),
    (A.2.2.2.2 2 (by decide)).1, (A.2.2.2.2 2 (by decide)).2⟩

/-- Concrete instance of the C5 theorem. -/
theorem insert_distinct_types_commute_witness :
    ((emptyMap.insert 1 10).1.insert 2 20).1.get 1 = some 10 ∧
    ((emptyMap.insert 1 10).1.insert 2 20).1.get 2 = some 20 ∧
    ((emptyMap.insert 2 20).1.insert 1 10).1.get 1 = some 10 ∧
    ((emptyMap.insert 2 20).1.insert 1 10).1.get 2 = some 20 ∧
    (emptyMap.insert 1 10).1.get 3 = emptyMap.get 3 := by
  have A := insert_distinct_types_commute emptyMap 1 2 10 20 (by decide)
  exact ⟨A.1, A.2.1, A.2.2.1, A.2.2.2.1, A.2.2.2.2 3 (by decide)⟩

/-- Concrete instance of the C6 theorem, at an occupied slot (key 1) and at
a vacant slot (key 2). -/
theorem or_insert_idempotent_witness :
    sampleMap.wellFormed = true ∧
    ((sampleMap.entry 1).or_insert 5).1 = sampleMap ∧
    ((sampleMap.entry 2).or_insert 5).1.get 2 = some 5 ∧
    ((sampleMap.entry 2).or_insert 5).1.get 1 = sampleMap.get 1 ∧
    ((((sampleMap.entry 1).or_insert 5).1.entry 1).or_insert 5).1 =
      ((sampleMap.entry 1).or_insert 5).1 ∧
    ((sampleMap.entry 1).or_insert 5).2 =
      ((sampleMap.entry 1).or_insert 5).1.get 1 ∧
    ((((sampleMap.entry 1).or_insert 5).1.entry 1).or_insert 5).2 =
      ((sampleMap.entry 1).or_insert 5).1.get 1 ∧
    countKey 1 ((sampleMap.entry 1).or_insert 5).1.raw.entries = 1 ∧
    countKey 2 ((sampleMap.entry 2).or_insert 5).1.raw.entries = 1 := by
  have A := or_insert_idempotent sampleMap 1 5 (by decide)
  have B := or_insert_idempotent sampleMap 2 5 (by decide)
  exact ⟨by decide, A.1 (by decide), (B.2.1 (by decide)).1,
    (B.2.1 (by decide)).2 1 (by decide), A.2.2.1, A.2.2.2.1,
    A.2.2.2.2.1, A.2.2.2.2.2, B.2.2.2.2.2⟩

/-- Concrete instance of the C7 theorem, at an occupied slot (key 1, stored
value 10) and at a vacant slot (key 2). -/
theorem and_modify_occupied_only_witness :
    (sampleMap.entry 2).and_modify (fun x => x + 1) = sampleMap.entry 2 ∧
    ((sampleMap.entry 1).and_modify (fun x => x + 1)).isOccupied = true ∧
    ((sampleMap.entry 1).and_modify (fun x => x + 1)).mapState.get 1 = some 11 ∧
    ((sampleMap.entry 1).and_modify (fun x => x + 1)).mapState.get 2 =
      sampleMap.get 2 := by
  have A := and_modify_occupied_only sampleMap 1 (fun x => x + 1)
  have B := and_modify_occupied_only sampleMap 2 (fun x => x + 1)
  exact ⟨B.1 (by decide), (A.2 10 (by decide)).1, (A.2 10 (by decide)).2.1,
    (A.2 10 (by decide)).2.2 2 (by decide)⟩

/-- Concrete instance of the C8 theorem. -/
theorem hasher_pass_through_witness :
    ([1, 0, 0, 0, 0, 0, 0, 0] : List Byte).length = 8 ∧
    ((TypeIdHasher.default.write [1, 0, 0, 0, 0, 0, 0, 0]).finish =
       u64FromNeBytes [1, 0, 0, 0, 0, 0, 0, 0] ∧
     TypeIdHasher.default.writeChecked [1, 2] = none) :=
  ⟨by decide, hasher_pass_through [1, 0, 0, 0, 0, 0, 0, 0] [1, 2]
    TypeIdHasher.default (by decide) (by decide)⟩

/-- Concrete instance of the C9 theorem, inserting an absent type (key 2)
and a present type (key 1) into the one-entry map. -/
theorem len_tracks_distinct_types_witness :
    sampleMap.wellFormed = true ∧
    (Map.new : Map Nat (fun _ => Int)).len = 0 ∧
    (sampleMap.isEmpty = true ↔ sampleMap.len = 0) ∧
    (sampleMap.insert 2 7).1.len = sampleMap.len + 1 ∧
    (sampleMap.insert 1 7).1.len = sampleMap.len ∧
    (sampleMap.remove 1).1.len + 1 = sampleMap.len ∧
    sampleMap.clear.len = 0 ∧
    sampleMap.clear.capacity = sampleMap.capacity := by
  have A := len_tracks_distinct_types sampleMap 1 (7 : Int) (by decide)
  have B := len_tracks_distinct_types sampleMap 2 (7 : Int) (by decide)
  exact ⟨by decide, A.1, A.2.1, B.2.2.1 (by decide), A.2.2.2.1 (by decide),
    A.2.2.2.2.1 (by decide), A.2.2.2.2.2.1, A.2.2.2.2.2.2⟩

/-- Concrete instance of the C10 theorem. -/
theorem write_wrong_width_no_op_witness :
    (⟨5⟩ : TypeIdHasher).write [1] = ⟨5⟩ ∧
    (([[], [1, 2, 3]] : List (List Byte)).foldl TypeIdHasher.write
      TypeIdHasher.default).finish = 0 ∧
    ((TypeIdHasher.default.write [2, 0, 0, 0, 0, 0, 0, 0]).write [1]).finish =
      (TypeIdHasher.default.write [2, 0, 0, 0, 0, 0, 0, 0]).finish :=
  write_wrong_width_no_op ⟨5⟩ [1] [2, 0, 0, 0, 0, 0, 0, 0] [[], [1, 2, 3]]
    (by decide) (by decide) (by decide)
